import Mathlib

/-!
Shallow embedding of `dclab/rtdc_dataset/writer.py` (class `RTDCWriter`).

HDF5 objects are modelled as follows:
* a resizable event-indexed dataset is a `List α` whose elements are the
  per-event records (for a 1-D dataset `α` is the scalar type, for an
  n-D dataset `α` is the trailing-shape record, e.g. an image frame);
* an HDF5 group is an association list `List (String × α)` in creation
  order (HDF5 names inside a group are unique; `grpGet` returns the
  first match, `grpSet` overwrites in place or appends, `grpDel`
  removes the name, mirroring `group[name]`, assignment and `del`);
* slice assignment `dset[a:b] = vals` is `sliceWrite`, the Python slice
  `data[a:b]` is `pySlice`;
* resizing a dataset (`dset.resize`) pads the list with a fill element,
  exactly like HDF5 fills freshly allocated space before it is written.

Fallible operations return an `Option WriterError` next to the state
they produced before the failure (Python raises leave earlier writes in
place, see the trace loop).
-/

namespace Dclab

/-- Write mode of `RTDCWriter` (`__init__`, writer.py line 32). -/
inductive Mode
  | append
  | replace
  | reset
  deriving DecidableEq, Repr

/-- Errors raised by the writer (writer.py lines 53, 80, 87, 141, 145). -/
inductive WriterError
  | undefinedFeature (feat : String)
  | unknownTraceKey (name : String)
  | noStoreRule (feat : String)
  | unknownMetaSection (sec : String)
  | unknownMetaKey (sec ck : String)
  deriving DecidableEq, Repr

/-- Constant `CHUNK_SIZE`, writer.py line 11. -/
def CHUNK_SIZE : Nat := 100

/-- HDF5 slice assignment `dset[start:start+len(vals)] = vals`. -/
def sliceWrite {α : Type} (rows : List α) (start : Nat) (vals : List α) : List α :=
  rows.take start ++ vals ++ rows.drop (start + vals.length)

/-- Python slice `data[start:stop]` (for `0 ≤ start ≤ stop`). -/
def pySlice {α : Type} (data : List α) (start stop : Nat) : List α :=
  (data.drop start).take (stop - start)

/-- The `for ii in range(num_chunks)` loop of `write_ndarray`
(writer.py lines 235-239), run for `n` iterations:
`dset[offset+ii*C : offset+(ii+1)*C] = data[ii*C : (ii+1)*C]`. -/
def chunkPass {α : Type} (rows : List α) (offset : Nat) (data : List α) (n : Nat) : List α :=
  (List.range n).foldl
    (fun acc ii =>
      sliceWrite acc (offset + ii * CHUNK_SIZE)
        (pySlice data (ii * CHUNK_SIZE) (ii * CHUNK_SIZE + CHUNK_SIZE)))
    rows

/-- The multi-dimensional branch of `write_ndarray` (writer.py lines
232-245): full blocks of `CHUNK_SIZE` events followed by one partial
remainder block. -/
def writeChunks {α : Type} (rows : List α) (offset : Nat) (data : List α) : List α :=
  let num_chunks := data.length / CHUNK_SIZE
  let rows1 := chunkPass rows offset data num_chunks
  let num_remain := data.length % CHUNK_SIZE
  if num_remain = 0 then
    rows1
  else
    sliceWrite rows1 (offset + num_chunks * CHUNK_SIZE)
      (pySlice data (num_chunks * CHUNK_SIZE) (num_chunks * CHUNK_SIZE + num_remain))

theorem sliceWrite_nil {α : Type} (rows : List α) (start : Nat) :
    sliceWrite rows start [] = rows := by
  simp [sliceWrite, List.take_append_drop]

theorem length_take_of_le {α : Type} {n : Nat} {l : List α} (h : n ≤ l.length) :
    (l.take n).length = n := by
  simp [List.length_take, Nat.min_eq_left h]

/-- Two consecutive slice writes are one slice write of the
concatenation. -/
theorem sliceWrite_sliceWrite {α : Type} (rows vs ws : List α) (start : Nat)
    (h : start ≤ rows.length) :
    sliceWrite (sliceWrite rows start vs) (start + vs.length) ws
      = sliceWrite rows start (vs ++ ws) := by
  have hA : (rows.take start).length = start := length_take_of_le h
  have h1 : (sliceWrite rows start vs).take (start + vs.length)
      = rows.take start ++ vs := by
    simp only [sliceWrite]
    rw [List.take_append_eq_append_take]
    rw [List.take_of_length_le (by simp [hA])]
    simp [hA]
  have h2 : (sliceWrite rows start vs).drop (start + vs.length + ws.length)
      = rows.drop (start + vs.length + ws.length) := by
    simp only [sliceWrite]
    rw [List.drop_append_eq_append_drop]
    rw [List.drop_of_length_le (by simp [hA])]
    simp only [List.nil_append, List.length_append, hA, List.drop_drop]
    congr 1
    omega
  calc sliceWrite (sliceWrite rows start vs) (start + vs.length) ws
      = (sliceWrite rows start vs).take (start + vs.length) ++ ws
          ++ (sliceWrite rows start vs).drop (start + vs.length + ws.length) := rfl
    _ = rows.take start ++ vs ++ ws ++ rows.drop (start + vs.length + ws.length) := by
        rw [h1, h2]
    _ = sliceWrite rows start (vs ++ ws) := by
        simp [sliceWrite, List.append_assoc, Nat.add_assoc]

/-- After `n` full-chunk iterations the dataset looks as if the first
`n * CHUNK_SIZE` events had been written in one bulk operation. -/
theorem chunkPass_eq_bulk {α : Type} (rows data : List α) (offset n : Nat)
    (h1 : offset + data.length ≤ rows.length)
    (h2 : n * CHUNK_SIZE ≤ data.length) :
    chunkPass rows offset data n = sliceWrite rows offset (data.take (n * CHUNK_SIZE)) := by
  induction n with
  | zero =>
      simp [chunkPass, sliceWrite, List.take_append_drop]
  | succ m ih =>
      have hm : m * CHUNK_SIZE ≤ data.length := by
        have := h2
        have hstep : m * CHUNK_SIZE ≤ (m + 1) * CHUNK_SIZE := by
          apply Nat.mul_le_mul_right
          omega
        omega
      have hlen_t : (data.take (m * CHUNK_SIZE)).length = m * CHUNK_SIZE :=
        length_take_of_le hm
      have hstep : chunkPass rows offset data (m + 1)
          = sliceWrite (chunkPass rows offset data m)
              (offset + m * CHUNK_SIZE)
              (pySlice data (m * CHUNK_SIZE) (m * CHUNK_SIZE + CHUNK_SIZE)) := by
        simp [chunkPass, List.range_succ]
      rw [hstep, ih hm]
      have hoff : offset ≤ rows.length := by omega
      have hv : pySlice data (m * CHUNK_SIZE) (m * CHUNK_SIZE + CHUNK_SIZE)
          = (data.drop (m * CHUNK_SIZE)).take CHUNK_SIZE := by
        simp [pySlice]
      have hcomb := sliceWrite_sliceWrite rows (data.take (m * CHUNK_SIZE))
        ((data.drop (m * CHUNK_SIZE)).take CHUNK_SIZE) offset hoff
      rw [hv, hlen_t] at *
      rw [hcomb]
      congr 1
      rw [← List.take_add]
      congr 1
      rw [Nat.succ_mul]

/-- The chunked multi-dimensional write path of `write_ndarray` produces
exactly the same dataset contents as one bulk slice write at the same
offset. -/
theorem writeChunks_eq_bulk {α : Type} (rows data : List α) (offset : Nat)
    (h : offset + data.length ≤ rows.length) :
    writeChunks rows offset data = sliceWrite rows offset data := by
  have hq : data.length / CHUNK_SIZE * CHUNK_SIZE ≤ data.length :=
    Nat.div_mul_le_self _ _
  have hpass := chunkPass_eq_bulk rows data offset (data.length / CHUNK_SIZE) h hq
  have hq' : data.length / CHUNK_SIZE * CHUNK_SIZE + data.length % CHUNK_SIZE
      = data.length := Nat.div_add_mod' _ _
  by_cases hr : data.length % CHUNK_SIZE = 0
  · have hqq : data.length / CHUNK_SIZE * CHUNK_SIZE = data.length := by omega
    simp only [writeChunks]
    rw [if_pos hr, hpass, hqq, List.take_length]
  · simp only [writeChunks]
    rw [if_neg hr, hpass]
    have hlen_t : (data.take (data.length / CHUNK_SIZE * CHUNK_SIZE)).length
        = data.length / CHUNK_SIZE * CHUNK_SIZE := length_take_of_le hq
    have hoff : offset ≤ rows.length := by omega
    have hcomb := sliceWrite_sliceWrite rows
      (data.take (data.length / CHUNK_SIZE * CHUNK_SIZE))
      ((data.drop (data.length / CHUNK_SIZE * CHUNK_SIZE)).take (data.length % CHUNK_SIZE))
      offset hoff
    have hv : pySlice data (data.length / CHUNK_SIZE * CHUNK_SIZE)
        (data.length / CHUNK_SIZE * CHUNK_SIZE + data.length % CHUNK_SIZE)
        = (data.drop (data.length / CHUNK_SIZE * CHUNK_SIZE)).take (data.length % CHUNK_SIZE) := by
      simp [pySlice]
    rw [hlen_t] at hcomb
    rw [hv, hcomb]
    congr 1
    rw [← List.take_add, hq', List.take_length]

/-- HDF5 group lookup `group[name]` (first matching link; HDF5 link
names inside one group are unique). -/
def grpGet {α : Type} : List (String × α) → String → Option α
  | [], _ => none
  | (k, v) :: rest, n => if k = n then some v else grpGet rest n

/-- HDF5 in-group assignment: overwrite the link if the name exists,
otherwise create it at the end (creation order). -/
def grpSet {α : Type} : List (String × α) → String → α → List (String × α)
  | [], n, v => [(n, v)]
  | (k, w) :: rest, n, v =>
      if k = n then (k, v) :: rest else (k, w) :: grpSet rest n v

/-- HDF5 link deletion `del group[name]`. -/
def grpDel {α : Type} : List (String × α) → String → List (String × α)
  | [], _ => []
  | (k, v) :: rest, n =>
      if k = n then grpDel rest n else (k, v) :: grpDel rest n

/-- Number of links of a given name in a group (1 or 0 in real HDF5). -/
def countKey {α : Type} : List (String × α) → String → Nat
  | [], _ => 0
  | (k, _) :: rest, n =>
      (if k = n then 1 else 0) + countKey rest n

theorem grpGet_set_self {α : Type} (g : List (String × α)) (n : String) (v : α) :
    grpGet (grpSet g n v) n = some v := by
  induction g with
  | nil => simp [grpGet, grpSet]
  | cons kv rest ih =>
      by_cases hk : kv.1 = n
      · simp [grpGet, grpSet, hk]
      · simp [grpGet, grpSet, hk, ih]

theorem grpGet_set_ne {α : Type} (g : List (String × α)) (n m : String) (v : α)
    (h : m ≠ n) : grpGet (grpSet g n v) m = grpGet g m := by
  have h' : n ≠ m := Ne.symm h
  induction g with
  | nil => simp [grpGet, grpSet, h']
  | cons kv rest ih =>
      by_cases hk : kv.1 = n
      · by_cases hm : kv.1 = m
        · exact absurd (hm.symm.trans hk).symm h'
        · simp [grpGet, grpSet, hk, hm, h']
      · simp [grpGet, grpSet, hk, ih]

theorem grpGet_del_self {α : Type} (g : List (String × α)) (n : String) :
    grpGet (grpDel g n) n = none := by
  induction g with
  | nil => simp [grpGet, grpDel]
  | cons kv rest ih =>
      by_cases hk : kv.1 = n
      · simp [grpDel, hk, ih]
      · simp [grpDel, grpGet, hk, ih]

theorem grpGet_del_none {α : Type} (g : List (String × α)) (n m : String)
    (h : grpGet g m = none) : grpGet (grpDel g n) m = none := by
  induction g with
  | nil => simp [grpGet, grpDel]
  | cons kv rest ih =>
      by_cases hm : kv.1 = m
      · simp [grpGet, hm] at h
      · simp only [grpGet, if_neg hm] at h
        by_cases hk : kv.1 = n
        · simp [grpDel, hk, ih h]
        · simp [grpDel, grpGet, hk, hm, ih h]

theorem grpSet_of_get_none {α : Type} (g : List (String × α)) (n : String) (v : α)
    (h : grpGet g n = none) : grpSet g n v = g ++ [(n, v)] := by
  induction g with
  | nil => simp [grpSet]
  | cons kv rest ih =>
      by_cases hk : kv.1 = n
      · simp [grpGet, hk] at h
      · simp only [grpGet, if_neg hk] at h
        simp [grpSet, hk, ih h]

theorem countKey_del_self {α : Type} (g : List (String × α)) (n : String) :
    countKey (grpDel g n) n = 0 := by
  induction g with
  | nil => simp [countKey, grpDel]
  | cons kv rest ih =>
      by_cases hk : kv.1 = n
      · simp [grpDel, hk, ih]
      · simp [grpDel, countKey, hk, ih]

theorem countKey_append {α : Type} (g h : List (String × α)) (n : String) :
    countKey (g ++ h) n = countKey g n + countKey h n := by
  induction g with
  | nil => simp [countKey]
  | cons kv rest ih => simp [countKey, ih]; omega

theorem grpGet_mem {α : Type} (g : List (String × α)) (n : String) (v : α)
    (h : grpGet g n = some v) : (n, v) ∈ g := by
  induction g with
  | nil => simp [grpGet] at h
  | cons kv rest ih =>
      by_cases hk : kv.1 = n
      · simp only [grpGet, if_pos hk] at h
        obtain ⟨a, b⟩ := kv
        simp only at hk h
        subst hk
        injection h with hv
        subst hv
        exact List.mem_cons_self _ _
      · simp only [grpGet, if_neg hk] at h
        exact List.mem_cons_of_mem _ (ih h)

/-- Model of `write_ndarray` (writer.py lines 206-246) for a 1-dimensional
dataset, acting on the (possibly absent) dataset stored under the
requested name.  On create the dataset gets the data's shape (HDF5
fills it with `fill` before it is written); on append it is resized by
`data.length` and the new slice is written in one go
(`dset[offset:] = data`, line 231). -/
def write_ndarray_1d {α : Type} (existing : Option (List α)) (data : List α)
    (fill : α) : List α :=
  match existing with
  | none => sliceWrite (List.replicate data.length fill) 0 data
  | some rows => sliceWrite (rows ++ List.replicate data.length fill) rows.length data

/-- Model of `write_ndarray` (writer.py lines 206-246) for a multi-dimensional
dataset: same create/resize logic, but the new slice is populated by
the chunked loop (lines 232-245). -/
def write_ndarray_nd {α : Type} (existing : Option (List α)) (data : List α)
    (fill : α) : List α :=
  match existing with
  | none => writeChunks (List.replicate data.length fill) 0 data
  | some rows => writeChunks (rows ++ List.replicate data.length fill) rows.length data

theorem sliceWrite_exact {α : Type} (pre : List α) (data : List α) (fill : α) :
    sliceWrite (pre ++ List.replicate data.length fill) pre.length data
      = pre ++ data := by
  simp only [sliceWrite]
  rw [List.take_append_eq_append_take]
  rw [List.take_of_length_le (Nat.le_refl _), Nat.sub_self, List.take_zero]
  rw [List.drop_append_eq_append_drop]
  rw [List.drop_of_length_le (by omega)]
  rw [List.drop_of_length_le (by simp)]
  simp

theorem write_ndarray_1d_none {α : Type} (data : List α) (fill : α) :
    write_ndarray_1d none data fill = data := by
  have := sliceWrite_exact ([] : List α) data fill
  simpa [write_ndarray_1d] using this

theorem write_ndarray_1d_some {α : Type} (rows data : List α) (fill : α) :
    write_ndarray_1d (some rows) data fill = rows ++ data := by
  simpa [write_ndarray_1d] using sliceWrite_exact rows data fill

theorem write_ndarray_nd_none {α : Type} (data : List α) (fill : α) :
    write_ndarray_nd none data fill = data := by
  have hb := writeChunks_eq_bulk (List.replicate data.length fill) data 0 (by simp)
  have := sliceWrite_exact ([] : List α) data fill
  simp only [write_ndarray_nd, hb]
  simpa using this

theorem write_ndarray_nd_some {α : Type} (rows data : List α) (fill : α) :
    write_ndarray_nd (some rows) data fill = rows ++ data := by
  have hb := writeChunks_eq_bulk (rows ++ List.replicate data.length fill) data
    rows.length (by simp)
  simp only [write_ndarray_nd, hb]
  exact sliceWrite_exact rows data fill

/-- One image frame: a 2-D grayscale event, rows of uint8 pixel
values represented as `Nat` (all values produced here are `< 256`). -/
abbrev Frame := List (List Nat)

/-- A 2-D boolean event (mask before conversion). -/
abbrev BFrame := List (List Bool)

/-- Input of `write_image_grayscale` after `np.atleast_2d`
(writer.py line 187): a single 2-D frame or a 3-D batch of frames,
with boolean or integer pixels. -/
inductive ImgData
  | num2d (f : Frame)
  | num3d (fs : List Frame)
  | bool2d (f : BFrame)
  | bool3d (fs : List BFrame)

/-- Conversion `np.asarray(data, dtype=np.uint8) * 255` on one boolean pixel
(writer.py line 194); uint8 arithmetic, `1 * 255 = 255 < 256`. -/
def boolToUint8 (b : Bool) : Nat := ((if b then 1 else 0) * 255) % 256

/-- writer.py lines 188-190: a lone 2-D event is reshaped into a
3-D batch holding one event. -/
def imageAsBatch : ImgData → ImgData
  | .num2d f => .num3d [f]
  | .bool2d f => .bool3d [f]
  | x => x

/-- writer.py lines 193-194: boolean data (mask) are converted to
uint8 taking values 0 or 255; any other dtype is left unchanged.
The 2-D arms cannot be reached after `imageAsBatch` and wrap the lone
frame so that the function stays total. -/
def imageToUint8 : ImgData → List Frame
  | .num2d f => [f]
  | .num3d fs => fs
  | .bool2d f => [f.map (fun row => row.map boolToUint8)]
  | .bool3d fs => fs.map (fun f => f.map (fun row => row.map boolToUint8))

/-- Model of `write_image_grayscale` (writer.py lines 184-196): normalize to a
3-D batch, convert booleans to uint8, then `write_ndarray` (the
image-series tagging attributes of lines 198-204 carry no event data
and are not modelled). -/
def write_image_grayscale (existing : Option (List Frame)) (data : ImgData) : List Frame :=
  write_ndarray_nd existing (imageToUint8 (imageAsBatch data)) []

/-- The `store_feature` path for the grayscale-image features
"image", "image_bg" and "mask" (writer.py lines 57-64 and 72-75),
acting on the image datasets of the `events` group: replace-mode
deletion, then the image writer. -/
def store_feature_image (mode : Mode) (events : List (String × List Frame))
    (feat : String) (data : ImgData) : List (String × List Frame) :=
  let events1 :=
    if (grpGet events feat).isSome ∧ mode = Mode.replace then grpDel events feat
    else events
  grpSet events1 feat (write_image_grayscale (grpGet events1 feat) data)

/-- The `store_feature` path for scalar features (writer.py lines
57-69): replace-mode deletion, then `write_ndarray` of the
1-dimensional data (`np.atleast_1d` of an event array is the array
itself); HDF5 fills fresh space of a numeric dataset with 0. -/
def store_feature_scalar (mode : Mode) (events : List (String × List Int))
    (feat : String) (data : List Int) : List (String × List Int) :=
  let events1 :=
    if (grpGet events feat).isSome ∧ mode = Mode.replace then grpDel events feat
    else events
  grpSet events1 feat (write_ndarray_1d (grpGet events1 feat) data 0)

/-- Modelled from the spec: the fixed trace-channel vocabulary
`dfn.FLUOR_TRACES` lives in the `definitions` module, which is not
among the sources; the spec states only that it is a fixed closed
vocabulary of fluorescence trace channel names. -/
def FLUOR_TRACES : List String :=
  ["fl1_median", "fl1_raw", "fl2_median", "fl2_raw", "fl3_median", "fl3_raw"]

/-- One trace event: a fixed-length list of samples. -/
abbrev TraceRow := List Int

/-- writer.py lines 59-62: in replace mode the deletion for "trace"
is per channel name occurring in the incoming data. -/
def traceReplaceDel : List (String × List TraceRow) → List String
    → List (String × List TraceRow)
  | trace, [] => trace
  | trace, k :: rest =>
      traceReplaceDel (if (grpGet trace k).isSome then grpDel trace k else trace) rest

/-- The `for tr_name in data.keys()` loop of the trace branch
(writer.py lines 77-85): each channel name is checked against the
vocabulary before its data is written; an unknown name raises, leaving
the channels already written in place and the offending one unwritten. -/
def write_trace_loop : List (String × List TraceRow) → List (String × List TraceRow)
    → List (String × List TraceRow) × Option WriterError
  | grp, [] => (grp, none)
  | grp, (tr_name, d) :: rest =>
      if tr_name ∈ FLUOR_TRACES then
        write_trace_loop (grpSet grp tr_name (write_ndarray_nd (grpGet grp tr_name) d [])) rest
      else (grp, some (.unknownTraceKey tr_name))

/-- The `store_feature` path for feature "trace" (writer.py lines
57-62 and 76-85), acting on the `events/trace` subgroup;
`tracePresent` is the test `"trace" in events`. -/
def store_feature_trace (mode : Mode) (tracePresent : Bool)
    (trace : List (String × List TraceRow))
    (data : List (String × List TraceRow))
    : List (String × List TraceRow) × Option WriterError :=
  let trace1 :=
    if tracePresent ∧ mode = Mode.replace then traceReplaceDel trace (data.map Prod.fst)
    else trace
  write_trace_loop trace1 data

/-- Input of `write_ragged`: a list of per-event arrays, or a single
event placed into a one-element list (writer.py lines 254-256). -/
inductive RaggedData (α : Type)
  | single (c : α)
  | many (cs : List α)

def raggedAsList {α : Type} : RaggedData α → List α
  | .single c => [c]
  | .many cs => cs

/-- The `for ii, cc in enumerate(data)` loop of `write_ragged`
(writer.py lines 259-264): every event becomes one dataset named by
the decimal index `curid + ii`. -/
def raggedEntries {α : Type} (curid : Nat) : List α → List (String × α)
  | [] => []
  | c :: rest => (toString curid, c) :: raggedEntries (curid + 1) rest

/-- Model of `write_ragged` (writer.py lines 248-264): new entries are appended
to the subgroup starting at index `curid = len(grp.keys())`. -/
def write_ragged {α : Type} (grp : List (String × α)) (data : RaggedData α) :
    List (String × α) :=
  grp ++ raggedEntries grp.length (raggedAsList data)

/-- Byte strings (Python `bytes`) as lists of byte values. -/
abbrev Bytes := List Nat

/-- One input line of `write_text`: `str` or `bytes`
(writer.py lines 297-302). -/
inductive LineVal
  | str (s : String)
  | bytes (b : Bytes)

/-- The `lines` argument of `write_text`: one single `str`/`bytes`
value, or a list of lines (writer.py lines 284-286). -/
inductive TextLines
  | single (v : LineVal)
  | many (vs : List LineVal)

/-- UTF-8 encoding of a single character (`line.encode("UTF-8")`). -/
def utf8Char (c : Char) : Bytes :=
  let n := c.toNat
  if n < 128 then [n]
  else if n < 2048 then [192 + n / 64, 128 + n % 64]
  else if n < 65536 then [224 + n / 4096, 128 + n / 64 % 64, 128 + n % 64]
  else [240 + n / 262144, 128 + n / 4096 % 64, 128 + n / 64 % 64, 128 + n % 64]

/-- UTF-8 encoding of a string. -/
def utf8Encode (s : String) : Bytes := (s.data.map utf8Char).flatten

/-- writer.py lines 297-304: `str` lines are UTF-8 encoded, `bytes`
lines are used as they are. -/
def lineBytes : LineVal → Bytes
  | .str s => utf8Encode s
  | .bytes b => b

/-- writer.py lines 284-286: one single `str`/`bytes` value is placed
into a one-line list. -/
def linesAsList : TextLines → List LineVal
  | .single v => [v]
  | .many vs => vs

/-- writer.py lines 295-303: the fixed record width for this call,
`max(100, longest byte length among the lines of this call)`. -/
def textWidth (bs : List Bytes) : Nat :=
  bs.foldl (fun m b => max m b.length) 100

/-- A fixed-width byte-string HDF5 dataset (dtype `S(width)`):
`width` is fixed at creation, `entries` is the resizable contents. -/
structure TextDset where
  width : Nat
  entries : List Bytes
  deriving DecidableEq, Repr

/-- The `for ii, lbytes in enumerate(lines_as_bytes)` loop of
`write_text` (writer.py lines 324-326).  Assigning a byte string into
one record of an `S(width)` dataset stores at most `width` bytes:
over-long lines are silently truncated (numpy fixed-width-bytes
semantics; the spec describes the behaviour of over-long lines on an
existing array as truncating). -/
def writeTextLines (d : TextDset) (off : Nat) : List Bytes → TextDset
  | [] => d
  | b :: rest =>
      writeTextLines { d with entries := d.entries.set off (b.take d.width) } (off + 1) rest

/-- Model of `write_text` (writer.py lines 266-326): replace-mode deletion,
normalization of a single `str`/`bytes` value into a one-line list,
width computation `max(100, longest byte length in this call)`, then
dataset creation (fresh width) or resize (width kept), and the
line-by-line write at the old length. -/
def write_text (mode : Mode) (group : List (String × TextDset)) (name : String)
    (lines : TextLines) : List (String × TextDset) :=
  let group1 :=
    if (grpGet group name).isSome ∧ mode = Mode.replace then grpDel group name
    else group
  let lineList := linesAsList lines
  let lnum := lineList.length
  let lines_as_bytes := lineList.map lineBytes
  let max_length := textWidth lines_as_bytes
  match grpGet group1 name with
  | none =>
      let dset : TextDset := { width := max_length, entries := List.replicate lnum [] }
      grpSet group1 name (writeTextLines dset 0 lines_as_bytes)
  | some dset =>
      let dset1 : TextDset := { dset with entries := dset.entries ++ List.replicate lnum [] }
      grpSet group1 name (writeTextLines dset1 dset.entries.length lines_as_bytes)

/-- Model of `store_log` (writer.py lines 89-100): funnels into `write_text`
on the "logs" group. -/
def store_log (mode : Mode) (logs : List (String × TextDset)) (name : String)
    (lines : TextLines) : List (String × TextDset) :=
  write_text mode logs name lines

/-- Root attributes of the HDF5 container (`h5file.attrs`). -/
abbrev Attrs := List (String × String)

/-- One metadata section: key to value. -/
abbrev MetaSec := List (String × String)

/-- The `meta` mapping: section name to section dictionary. -/
abbrev Meta := List (String × MetaSec)

/-- External interface of the `definitions` registry used by
`store_metadata` (`dfn.CFG_METADATA` membership, `dfn.config_key_exists`,
`dfn.get_config_value_func`) plus the dclab version string.  Metadata
values are modelled as strings; at this value type the bytes-decoding
branch of writer.py lines 169-174 collapses to the identity. -/
structure MetaRegistry where
  hasSection : String → Bool
  keyExists : String → String → Bool
  convfunc : String → String → String → String
  version : String

/-- Inner validation loop of `store_metadata`
(writer.py lines 143-146). -/
def validateKeys (reg : MetaRegistry) (sec : String) : MetaSec → Option WriterError
  | [] => none
  | (ck, _) :: rest =>
      if reg.keyExists sec ck then validateKeys reg sec rest
      else some (.unknownMetaKey sec ck)

/-- Outer validation loop of `store_metadata`
(writer.py lines 132-146): "user" is skipped, an unregistered section
raises, registered sections have each key checked. -/
def validateMeta (reg : MetaRegistry) : Meta → Option WriterError
  | [] => none
  | (sec, entries) :: rest =>
      if sec = "user" then validateMeta reg rest
      else if reg.hasSection sec then
        match validateKeys reg sec entries with
        | some e => some e
        | none => validateMeta reg rest
      else some (.unknownMetaSection sec)

/-- The test `"setup" in meta and "software version" in meta["setup"]`
(writer.py lines 154-158). -/
def metaGetSW (meta : Meta) : Option String :=
  match grpGet meta "setup" with
  | some entries => grpGet entries "software version"
  | none => none

/-- Version branding (writer.py lines 148-162). -/
def brandMeta (reg : MetaRegistry) (attrs : Attrs) (meta : Meta)
    (version_brand : Bool) : Meta :=
  if version_brand
      ∧ ((grpGet attrs "setup:software version").isNone ∨ (metaGetSW meta).isSome) then
    let thisver := "dclab " ++ reg.version
    let thisver1 :=
      match metaGetSW meta with
      | some oldver => oldver ++ " | " ++ thisver
      | none => thisver
    match grpGet meta "setup" with
    | some entries => grpSet meta "setup" (grpSet entries "software version" thisver1)
    | none => grpSet meta "setup" [("software version", thisver1)]
  else meta

/-- Inner write loop over one section (writer.py lines 166-182):
attribute key `sec:ck`; values of the open "user" section are stored
as-is, all others go through the registry coercion function. -/
def writeSec (reg : MetaRegistry) (sec : String) (attrs : Attrs) : MetaSec → Attrs
  | [] => attrs
  | (ck, v) :: rest =>
      writeSec reg sec
        (grpSet attrs (sec ++ ":" ++ ck)
          (if sec = "user" then v else reg.convfunc sec ck v)) rest

/-- Outer write loop of `store_metadata` (writer.py lines 165-182). -/
def writeMeta (reg : MetaRegistry) (attrs : Attrs) : Meta → Attrs
  | [] => attrs
  | (sec, entries) :: rest => writeMeta reg (writeSec reg sec attrs entries) rest

/-- Model of `store_metadata` (writer.py lines 102-182): the whole validation
loop runs before anything is written; then version branding, then the
write loop.  Returns the container-root attributes together with the
error, if any. -/
def store_metadata (reg : MetaRegistry) (attrs : Attrs) (meta : Meta)
    (version_brand : Bool) : Attrs × Option WriterError :=
  match validateMeta reg meta with
  | some e => (attrs, some e)
  | none => (writeMeta reg attrs (brandMeta reg attrs meta version_brand), none)

/-! Claim theorems. -/

/-- C1: for every multi-dimensional input array, `write_ndarray`
writing the data in sequential blocks of `CHUNK_SIZE` (100) events
followed by one final partial block produces a stored dataset whose
contents are identical to writing the whole new slice in a single bulk
operation at the same offset. -/
theorem write_ndarray_chunked_matches_bulk {α : Type} (rows data : List α)
    (offset : Nat) (h : offset + data.length ≤ rows.length) :
    writeChunks rows offset data = sliceWrite rows offset data :=
  writeChunks_eq_bulk rows data offset h

/-- Witness for C1 at offset 2 with 205 events (two full chunks and a
remainder of 5) in a dataset of 207 rows. -/
theorem write_ndarray_chunked_matches_bulk_witness :
    2 + (List.range 205).length ≤ (List.replicate 207 (0 : Nat)).length
      ∧ writeChunks (List.replicate 207 (0 : Nat)) 2 (List.range 205)
          = sliceWrite (List.replicate 207 (0 : Nat)) 2 (List.range 205) :=
  ⟨by simp only [List.length_range, List.length_replicate]; omega,
   write_ndarray_chunked_matches_bulk _ _ 2
     (by simp only [List.length_range, List.length_replicate]; omega)⟩

/-- C2: for a scalar feature not yet stored, appending a write of N
events and then a write of M events yields one stored array of length
N + M whose first N elements are the first write and whose last M
elements are the second write. -/
theorem store_feature_scalar_append_concat (events : List (String × List Int))
    (feat : String) (d1 d2 : List Int) (h : grpGet events feat = none) :
    ∃ arr : List Int,
      grpGet (store_feature_scalar Mode.append
        (store_feature_scalar Mode.append events feat d1) feat d2) feat = some arr
      ∧ arr.length = d1.length + d2.length
      ∧ arr.take d1.length = d1
      ∧ arr.drop d1.length = d2 := by
  have hz : ∀ (es : List (String × List Int)) (d : List Int),
      store_feature_scalar Mode.append es feat d
        = grpSet es feat (write_ndarray_1d (grpGet es feat) d 0) := by
    intro es d
    simp [store_feature_scalar]
  rw [hz, hz, h, write_ndarray_1d_none, grpGet_set_self, grpGet_set_self,
    write_ndarray_1d_some]
  exact ⟨d1 ++ d2, rfl, by simp, by simp, by simp⟩

/-- Witness for C2: events [1,2,3] then [4,5] for feature "deform". -/
theorem store_feature_scalar_append_concat_witness :
    grpGet ([] : List (String × List Int)) "deform" = none
      ∧ ∃ arr : List Int,
          grpGet (store_feature_scalar Mode.append
            (store_feature_scalar Mode.append [] "deform" [1, 2, 3])
            "deform" [4, 5]) "deform" = some arr
          ∧ arr.length = [1, 2, 3].length + [4, 5].length
          ∧ arr.take [1, 2, 3].length = [1, 2, 3]
          ∧ arr.drop [1, 2, 3].length = [4, 5] :=
  ⟨rfl, store_feature_scalar_append_concat [] "deform" [1, 2, 3] [4, 5] rfl⟩

theorem raggedEntries_names {α : Type} (curid : Nat) (l : List α) :
    (raggedEntries curid l).map Prod.fst
      = (List.range l.length).map (fun i => toString (curid + i)) := by
  induction l generalizing curid with
  | nil => simp [raggedEntries]
  | cons c rest ih =>
      simp only [raggedEntries, List.map_cons, List.length_cons, ih,
        List.range_succ_eq_map, List.map_map, List.cons.injEq]
      constructor
      · simp
      · apply List.map_congr_left
        intro i _
        simp only [Function.comp_apply]
        congr 1
        omega

/-- C4: if the ragged subgroup holds entries named by the consecutive
decimal indices "0" .. "k-1", then after any `write_ragged` call the
entries are named "0" .. "k+j-1" with no gaps, where j is the number
of events written by the call. -/
theorem write_ragged_consecutive_names {α : Type} (grp : List (String × α))
    (data : RaggedData α)
    (h : grp.map Prod.fst = (List.range grp.length).map toString) :
    (write_ragged grp data).map Prod.fst
      = (List.range (grp.length + (raggedAsList data).length)).map toString := by
  simp only [write_ragged, List.map_append, h, raggedEntries_names]
  rw [List.range_add, List.map_append, List.map_map]
  rfl

/-- Witness for C4: events of lengths [3, 7, 1] in one call, then [5]
in a second call, produce exactly the entries "0", "1", "2", "3". -/
theorem write_ragged_consecutive_names_witness :
    (write_ragged (write_ragged ([] : List (String × List Nat))
        (.many [[1, 2, 3], [1, 2, 3, 4, 5, 6, 7], [9]]))
        (.many [[5, 5, 5, 5, 5]])).map Prod.fst
      = ["0", "1", "2", "3"] := by
  have h1 := write_ragged_consecutive_names
    (write_ragged ([] : List (String × List Nat))
      (.many [[1, 2, 3], [1, 2, 3, 4, 5, 6, 7], [9]]))
    (.many [[5, 5, 5, 5, 5]]) (by decide)
  rw [h1]
  decide

/-- C8: a single 2-D frame is stored as a 3-D dataset holding exactly
one event (shape (1, H, W)); boolean input is stored as uint8 with
False mapped to 0 and True mapped to 255. -/
theorem write_image_grayscale_single_frame_and_bool (f : Frame) (g : BFrame) :
    write_image_grayscale none (.num2d f) = [f]
      ∧ (write_image_grayscale none (.num2d f)).length = 1
      ∧ write_image_grayscale none (.bool2d g)
          = [g.map (fun row => row.map (fun b => if b then 255 else 0))] := by
  have hb : boolToUint8 = fun b => if b then 255 else 0 := by
    funext b
    cases b <;> rfl
  have h1 : write_image_grayscale none (.num2d f) = [f] := by
    simp [write_image_grayscale, imageAsBatch, imageToUint8, write_ndarray_nd_none]
  have h3 : write_image_grayscale none (.bool2d g)
      = [g.map (fun row => row.map boolToUint8)] := by
    simp [write_image_grayscale, imageAsBatch, imageToUint8, write_ndarray_nd_none]
  exact ⟨h1, by rw [h1]; rfl, by rw [h3, hb]⟩

/-- C5: in replace mode an already present non-trace feature array is
deleted before writing: afterwards exactly one array of that name
exists and it holds exactly the new data, with no residual events from
the earlier write.  Stated for the scalar path and for the
grayscale-image path (the two dataset-shaped non-trace kinds). -/
theorem store_feature_replace_leaves_single_array
    (sevents : List (String × List Int)) (ievents : List (String × List Frame))
    (sfeat ifeat : String) (dB : List Int) (dI : ImgData)
    (hs : (grpGet sevents sfeat).isSome = true)
    (hi : (grpGet ievents ifeat).isSome = true) :
    (countKey (store_feature_scalar Mode.replace sevents sfeat dB) sfeat = 1
      ∧ grpGet (store_feature_scalar Mode.replace sevents sfeat dB) sfeat = some dB)
    ∧ (countKey (store_feature_image Mode.replace ievents ifeat dI) ifeat = 1
      ∧ grpGet (store_feature_image Mode.replace ievents ifeat dI) ifeat
          = some (imageToUint8 (imageAsBatch dI))) := by
  have hscalar : store_feature_scalar Mode.replace sevents sfeat dB
      = grpDel sevents sfeat ++ [(sfeat, dB)] := by
    simp only [store_feature_scalar, hs, true_and, and_true, if_true, eq_self_iff_true,
      ite_true]
    rw [grpGet_del_self, write_ndarray_1d_none,
      grpSet_of_get_none _ _ _ (grpGet_del_self _ _)]
  have himage : store_feature_image Mode.replace ievents ifeat dI
      = grpDel ievents ifeat ++ [(ifeat, imageToUint8 (imageAsBatch dI))] := by
    simp only [store_feature_image, hi, true_and, and_true, if_true, eq_self_iff_true,
      ite_true]
    rw [grpGet_del_self]
    rw [show write_image_grayscale none dI
        = imageToUint8 (imageAsBatch dI) from write_ndarray_nd_none _ _]
    exact grpSet_of_get_none _ _ _ (grpGet_del_self _ _)
  refine ⟨⟨?_, ?_⟩, ⟨?_, ?_⟩⟩
  · rw [hscalar, countKey_append, countKey_del_self]
    simp [countKey]
  · rw [← grpSet_of_get_none _ _ _ (grpGet_del_self sevents sfeat)] at hscalar
    rw [hscalar, grpGet_set_self]
  · rw [himage, countKey_append, countKey_del_self]
    simp [countKey]
  · rw [← grpSet_of_get_none _ _ _ (grpGet_del_self ievents ifeat)] at himage
    rw [himage, grpGet_set_self]

/-- Witness for C5: "area_um" of 3 events replaced by 1 event, and
"mask" of two 2x2 events replaced by one 1x1 event. -/
theorem store_feature_replace_leaves_single_array_witness :
    ((grpGet [("area_um", [5, 6, 7])] "area_um").isSome = true
      ∧ (grpGet [("mask", [[[255, 255], [255, 255]], [[0, 0], [0, 0]]])]
          "mask").isSome = true)
    ∧ (countKey (store_feature_scalar Mode.replace
          [("area_um", [5, 6, 7])] "area_um" [9]) "area_um" = 1
      ∧ grpGet (store_feature_scalar Mode.replace
          [("area_um", [5, 6, 7])] "area_um" [9]) "area_um" = some [9])
    ∧ (countKey (store_feature_image Mode.replace
          [("mask", [[[255, 255], [255, 255]], [[0, 0], [0, 0]]])]
          "mask" (.num3d [[[7]]])) "mask" = 1
      ∧ grpGet (store_feature_image Mode.replace
          [("mask", [[[255, 255], [255, 255]], [[0, 0], [0, 0]]])]
          "mask" (.num3d [[[7]]])) "mask"
          = some (imageToUint8 (imageAsBatch (.num3d [[[7]]])))) := by
  have h := store_feature_replace_leaves_single_array
    [("area_um", [5, 6, 7])] [("mask", [[[255, 255], [255, 255]], [[0, 0], [0, 0]]])]
    "area_um" "mask" [9] (.num3d [[[7]]]) rfl rfl
  exact ⟨⟨rfl, rfl⟩, h.1, h.2⟩

theorem grpGet_traceReplaceDel_none (trace : List (String × List TraceRow))
    (keys : List String) (bad : String) (h : grpGet trace bad = none) :
    grpGet (traceReplaceDel trace keys) bad = none := by
  induction keys generalizing trace with
  | nil => simpa [traceReplaceDel] using h
  | cons k rest ih =>
      simp only [traceReplaceDel]
      by_cases hk : (grpGet trace k).isSome
      · rw [if_pos hk]
        exact ih _ (grpGet_del_none _ _ _ h)
      · rw [if_neg hk]
        exact ih _ h

theorem write_trace_loop_unknown (grp : List (String × List TraceRow))
    (data : List (String × List TraceRow)) (bad : String)
    (h1 : bad ∉ FLUOR_TRACES) (h2 : bad ∈ data.map Prod.fst)
    (h3 : grpGet grp bad = none) :
    (∃ c, (write_trace_loop grp data).2 = some (WriterError.unknownTraceKey c)
        ∧ c ∉ FLUOR_TRACES)
      ∧ grpGet (write_trace_loop grp data).1 bad = none := by
  induction data generalizing grp with
  | nil => simp at h2
  | cons kv rest ih =>
      obtain ⟨n, d⟩ := kv
      simp only [List.map_cons, List.mem_cons] at h2
      by_cases hn : n ∈ FLUOR_TRACES
      · have hbadne : bad ≠ n := by
          intro he
          exact h1 (he ▸ hn)
        have h2' : bad ∈ rest.map Prod.fst := by
          rcases h2 with hcase | hcase
          · exact absurd (hcase ▸ hn) h1
          · exact hcase
        simp only [write_trace_loop, if_pos hn]
        exact ih _ h2' (by rw [grpGet_set_ne _ _ _ _ hbadne]; exact h3)
      · simp only [write_trace_loop, if_neg hn]
        exact ⟨⟨n, rfl, hn⟩, h3⟩

/-- C7: a `store_feature` call for feature "trace" whose data mapping
contains a channel name outside the fixed trace-channel vocabulary
fails with the unknown-trace-channel error, and no array is created
for that channel. -/
theorem store_feature_trace_unknown_channel (mode : Mode) (tracePresent : Bool)
    (trace : List (String × List TraceRow))
    (data : List (String × List TraceRow)) (bad : String)
    (h1 : bad ∉ FLUOR_TRACES) (h2 : bad ∈ data.map Prod.fst)
    (h3 : grpGet trace bad = none) :
    (∃ c, (store_feature_trace mode tracePresent trace data).2
        = some (WriterError.unknownTraceKey c) ∧ c ∉ FLUOR_TRACES)
      ∧ grpGet (store_feature_trace mode tracePresent trace data).1 bad = none := by
  have hpre : grpGet (if tracePresent ∧ mode = Mode.replace
      then traceReplaceDel trace (data.map Prod.fst) else trace) bad = none := by
    split
    · exact grpGet_traceReplaceDel_none _ _ _ h3
    · exact h3
  simp only [store_feature_trace]
  exact write_trace_loop_unknown _ data bad h1 h2 hpre

/-- Witness for C7: channel "bogus" after the valid channel "fl1_raw". -/
theorem store_feature_trace_unknown_channel_witness :
    ("bogus" ∉ FLUOR_TRACES
      ∧ "bogus" ∈ ([("fl1_raw", [[1, 2]]), ("bogus", [[3]])].map
          (Prod.fst (α := String) (β := List TraceRow)))
      ∧ grpGet ([] : List (String × List TraceRow)) "bogus" = none)
    ∧ (∃ c, (store_feature_trace Mode.append false []
          [("fl1_raw", [[1, 2]]), ("bogus", [[3]])]).2
        = some (WriterError.unknownTraceKey c) ∧ c ∉ FLUOR_TRACES)
    ∧ grpGet (store_feature_trace Mode.append false []
        [("fl1_raw", [[1, 2]]), ("bogus", [[3]])]).1 "bogus" = none := by
  have h := store_feature_trace_unknown_channel Mode.append false []
    [("fl1_raw", [[1, 2]]), ("bogus", [[3]])] "bogus"
    (by decide) (by decide) rfl
  exact ⟨⟨by decide, by decide, rfl⟩, h.1, h.2⟩

theorem validateKeys_err (reg : MetaRegistry) (sec : String) (entries : MetaSec)
    (e : WriterError) (h : validateKeys reg sec entries = some e) :
    ∃ s k, e = WriterError.unknownMetaKey s k := by
  induction entries with
  | nil => simp [validateKeys] at h
  | cons kv rest ih =>
      obtain ⟨ck, v⟩ := kv
      simp only [validateKeys] at h
      by_cases hk : reg.keyExists sec ck
      · rw [if_pos hk] at h
        exact ih h
      · rw [if_neg hk] at h
        injection h with h'
        exact ⟨sec, ck, h'.symm⟩

theorem validateMeta_err (reg : MetaRegistry) (meta : Meta) (e : WriterError)
    (h : validateMeta reg meta = some e) :
    (∃ s, e = WriterError.unknownMetaSection s)
      ∨ (∃ s k, e = WriterError.unknownMetaKey s k) := by
  induction meta with
  | nil => simp [validateMeta] at h
  | cons se rest ih =>
      obtain ⟨sec, entries⟩ := se
      simp only [validateMeta] at h
      by_cases hu : sec = "user"
      · rw [if_pos hu] at h
        exact ih h
      · rw [if_neg hu] at h
        by_cases hs : reg.hasSection sec
        · rw [if_pos hs] at h
          cases hk : validateKeys reg sec entries with
          | some e2 =>
              rw [hk] at h
              injection h with h'
              exact Or.inr (h' ▸ validateKeys_err reg sec entries e2 hk)
          | none =>
              rw [hk] at h
              exact ih h
        · rw [if_neg hs] at h
          injection h with h'
          exact Or.inl ⟨sec, h'.symm⟩

/-- C9: `store_metadata` validates every section and key before
writing anything: whenever it fails, the error is an unknown-section or
unknown-key error and the container-root attributes are unchanged. -/
theorem store_metadata_validation_atomic (reg : MetaRegistry) (attrs : Attrs)
    (meta : Meta) (vb : Bool) (e : WriterError)
    (h : (store_metadata reg attrs meta vb).2 = some e) :
    (store_metadata reg attrs meta vb).1 = attrs
      ∧ ((∃ s, e = WriterError.unknownMetaSection s)
        ∨ (∃ s k, e = WriterError.unknownMetaKey s k)) := by
  cases hv : validateMeta reg meta with
  | some e2 =>
      have h2 : e = e2 := by
        simp only [store_metadata, hv] at h
        injection h with h'
        exact h'.symm
      subst h2
      constructor
      · simp only [store_metadata, hv]
      · exact validateMeta_err reg meta _ hv
  | none => simp [store_metadata, hv] at h

/-- A concrete registry used by witness statements: only the section
"setup" with key "software version" is registered, the coercion is the
identity (like `str`). -/
def regExample : MetaRegistry where
  hasSection := fun s => s == "setup"
  keyExists := fun s k => s == "setup" && k == "software version"
  convfunc := fun _ _ v => v
  version := "0.39.0"

/-- Witness for C9: an unregistered section "imaging" leaves the
attribute list unchanged. -/
theorem store_metadata_validation_atomic_witness :
    (store_metadata regExample [("a", "b")]
        [("imaging", [("exposure time", "20")])] true).2
      = some (WriterError.unknownMetaSection "imaging")
    ∧ (store_metadata regExample [("a", "b")]
        [("imaging", [("exposure time", "20")])] true).1 = [("a", "b")] :=
  ⟨rfl, (store_metadata_validation_atomic regExample [("a", "b")]
    [("imaging", [("exposure time", "20")])] true
    (WriterError.unknownMetaSection "imaging") rfl).1⟩

theorem set_at_length {α : Type} (pre l : List α) (x y : α) :
    (pre ++ x :: l).set pre.length y = pre ++ y :: l := by
  induction pre with
  | nil => rfl
  | cons a rest ih => simp [List.set, ih]

theorem textWidth_init_le (bs : List Bytes) (a : Nat) :
    a ≤ bs.foldl (fun m b => max m b.length) a := by
  induction bs generalizing a with
  | nil => simp
  | cons b rest ih => exact le_trans (le_max_left _ _) (ih _)

theorem textWidth_mem_le (bs : List Bytes) (a : Nat) (b : Bytes) (hb : b ∈ bs) :
    b.length ≤ bs.foldl (fun m b2 => max m b2.length) a := by
  induction bs generalizing a with
  | nil => simp at hb
  | cons c rest ih =>
      rcases List.mem_cons.mp hb with hcase | hcase
      · subst hcase
        exact le_trans (le_max_right _ _) (textWidth_init_le rest _)
      · exact ih _ hcase

theorem writeTextLines_fill (w : Nat) (pre ls : List Bytes) (k off : Nat)
    (hk : k = ls.length) (hoff : off = pre.length) :
    writeTextLines { width := w, entries := pre ++ List.replicate k [] } off ls
      = { width := w, entries := pre ++ ls.map (fun b => b.take w) } := by
  subst hk
  subst hoff
  induction ls generalizing pre with
  | nil => simp [writeTextLines]
  | cons b rest ih =>
      simp only [writeTextLines, List.length_cons, List.replicate_succ]
      rw [set_at_length, List.append_cons]
      have hstep := ih (pre ++ [b.take w])
      rw [show (pre ++ [b.take w]).length = pre.length + 1 by simp] at hstep
      rw [hstep]
      simp

theorem writeTextLines_fill_nil (w : Nat) (ls : List Bytes) (k : Nat)
    (hk : k = ls.length) :
    writeTextLines { width := w, entries := List.replicate k [] } 0 ls
      = { width := w, entries := ls.map (fun b => b.take w) } := by
  have h := writeTextLines_fill w [] ls k 0 hk rfl
  simpa using h

/-- Behaviour of `write_text` in append mode when the dataset does not exist yet
(the create branch, writer.py lines 306-316). -/
theorem write_text_append_create (group : List (String × TextDset)) (name : String)
    (lines : TextLines) (h : grpGet group name = none) :
    write_text Mode.append group name lines
      = grpSet group name
          (writeTextLines
            { width := textWidth ((linesAsList lines).map lineBytes),
              entries := List.replicate (linesAsList lines).length [] }
            0 ((linesAsList lines).map lineBytes)) := by
  simp [write_text, h]

/-- Behaviour of `write_text` in append mode on an existing dataset (the resize
branch, writer.py lines 317-326): the width of the existing dataset is
kept, the freshly computed `max_length` is unused. -/
theorem write_text_append_existing (group : List (String × TextDset)) (name : String)
    (lines : TextLines) (d0 : TextDset) (h : grpGet group name = some d0) :
    write_text Mode.append group name lines
      = grpSet group name
          (writeTextLines
            { width := d0.width,
              entries := d0.entries ++ List.replicate (linesAsList lines).length [] }
            d0.entries.length ((linesAsList lines).map lineBytes)) := by
  simp [write_text, h]

/-- C3 amended: the fixed width of the stored byte-string array is
decided by the call that creates it — max(100, longest UTF-8 byte
length among the lines of that call) — and every line of the creating
call is stored untruncated.  Later calls in the same session do not
widen the array (see the counterexample for a longer later line). -/
theorem write_text_width_fixed_at_creation (group : List (String × TextDset))
    (name : String) (lines : TextLines) (h : grpGet group name = none) :
    ∃ d : TextDset,
      grpGet (write_text Mode.append group name lines) name = some d
      ∧ d.width = textWidth ((linesAsList lines).map lineBytes)
      ∧ d.entries = (linesAsList lines).map lineBytes := by
  have hW : ∀ b ∈ (linesAsList lines).map lineBytes,
      b.take (textWidth ((linesAsList lines).map lineBytes)) = b := fun b hb =>
    List.take_of_length_le (textWidth_mem_le _ _ _ hb)
  have hentries : ((linesAsList lines).map lineBytes).map
      (fun b => b.take (textWidth ((linesAsList lines).map lineBytes)))
      = (linesAsList lines).map lineBytes := by
    calc ((linesAsList lines).map lineBytes).map
          (fun b => b.take (textWidth ((linesAsList lines).map lineBytes)))
        = ((linesAsList lines).map lineBytes).map id := List.map_congr_left hW
      _ = (linesAsList lines).map lineBytes := List.map_id _
  refine ⟨{ width := textWidth ((linesAsList lines).map lineBytes),
            entries := (linesAsList lines).map lineBytes }, ?_, rfl, rfl⟩
  rw [write_text_append_create group name lines h,
    writeTextLines_fill_nil _ _ _ (List.length_map _ _).symm,
    hentries, grpGet_set_self]

/-- Witness for C3 (amended): a creating call with lines "a" and a
120-byte line yields width 120 and untruncated entries. -/
theorem write_text_width_fixed_at_creation_witness :
    grpGet ([] : List (String × TextDset)) "log0" = none
    ∧ ∃ d : TextDset,
        grpGet (write_text Mode.append [] "log0"
          (.many [.str "a", .bytes (List.replicate 120 98)])) "log0" = some d
        ∧ d.width = textWidth ((linesAsList
            (.many [.str "a", .bytes (List.replicate 120 98)])).map lineBytes)
        ∧ d.entries = (linesAsList
            (.many [.str "a", .bytes (List.replicate 120 98)])).map lineBytes :=
  ⟨rfl, write_text_width_fixed_at_creation [] "log0"
    (.many [.str "a", .bytes (List.replicate 120 98)]) rfl⟩

set_option maxRecDepth 8000 in
/-- C3 counterexample: within one session, a first `store_log` call
creates the log with width 100 (its only line is "a"), a second call
writes a 150-byte line: the stored width remains 100, although
max(100, longest line of the session) = 150, and the long line is
stored truncated to 100 bytes — refuting both parts of the claim. -/
theorem write_text_width_not_session_maximum :
    (grpGet (write_text Mode.append
        (write_text Mode.append [] "log" (.many [.str "a"]))
        "log" (.many [.bytes (List.replicate 150 97)])) "log").map TextDset.width
      = some 100
    ∧ ¬ (100 : Nat) = max 100 (List.replicate 150 (97 : Nat)).length
    ∧ (grpGet (write_text Mode.append
        (write_text Mode.append [] "log" (.many [.str "a"]))
        "log" (.many [.bytes (List.replicate 150 97)])) "log").map TextDset.entries
      = some [[97], List.replicate 100 97]
    ∧ ¬ List.replicate 100 (97 : Nat) = List.replicate 150 (97 : Nat) := by
  exact ⟨by decide, by decide, by decide, by decide⟩

/-- Number of stored lines under `name`, 0 when absent. -/
def textLenAt (group : List (String × TextDset)) (name : String) : Nat :=
  match grpGet group name with
  | some d => d.entries.length
  | none => 0

/-- C10 amended: a single `str`/`bytes` value passed as `lines` is
treated as a one-line list: the stored array gains exactly one entry,
holding the value's UTF-8 bytes truncated to the array's fixed width —
the full encoding whenever it fits, hence always when this call
creates the array. -/
theorem write_text_single_line_one_entry (group : List (String × TextDset))
    (name : String) (v : LineVal) :
    ∃ d : TextDset,
      grpGet (write_text Mode.append group name (.single v)) name = some d
      ∧ d.entries.length = textLenAt group name + 1
      ∧ d.entries.getLast? = some ((lineBytes v).take d.width)
      ∧ ((lineBytes v).length ≤ d.width → d.entries.getLast? = some (lineBytes v)) := by
  cases hg : grpGet group name with
  | none =>
      refine ⟨{ width := textWidth [lineBytes v],
                entries := [(lineBytes v).take (textWidth [lineBytes v])] },
        ?_, by simp [textLenAt, hg], rfl, ?_⟩
      · rw [write_text_append_create group name (.single v) hg,
          writeTextLines_fill_nil _ _ _ (List.length_map _ _).symm,
          grpGet_set_self]
        rfl
      · intro hfit
        simp only [List.getLast?_singleton, Option.some.injEq]
        exact List.take_of_length_le hfit
  | some d0 =>
      refine ⟨{ width := d0.width,
                entries := d0.entries ++ [(lineBytes v).take d0.width] },
        ?_, by simp [textLenAt, hg], by simp, ?_⟩
      · rw [write_text_append_existing group name (.single v) d0 hg,
          writeTextLines_fill d0.width d0.entries
            ((linesAsList (TextLines.single v)).map lineBytes)
            (linesAsList (TextLines.single v)).length d0.entries.length
            (List.length_map _ _).symm rfl,
          grpGet_set_self]
        rfl
      · intro hfit
        simp only [List.getLast?_concat, Option.some.injEq]
        exact List.take_of_length_le hfit

/-- Witness for C10 (amended): a single string "hi" creates a log with
exactly one entry, the UTF-8 bytes of "hi". -/
theorem write_text_single_line_one_entry_witness :
    ∃ d : TextDset,
      grpGet (write_text Mode.append [] "hello" (.single (.str "hi"))) "hello" = some d
      ∧ d.entries.length = textLenAt [] "hello" + 1
      ∧ d.entries.getLast? = some ((lineBytes (.str "hi")).take d.width)
      ∧ ((lineBytes (.str "hi")).length ≤ d.width
          → d.entries.getLast? = some (lineBytes (.str "hi"))) :=
  write_text_single_line_one_entry [] "hello" (.str "hi")

set_option maxRecDepth 8000 in
/-- C10 counterexample: appending a single 150-byte value to an
existing width-100 log gains one entry, but that entry is the
truncation to 100 bytes, not the value's encoding. -/
theorem write_text_single_line_truncated_on_append :
    (grpGet (write_text Mode.append
        (write_text Mode.append [] "notes" (.single (.bytes [97])))
        "notes" (.single (.bytes (List.replicate 150 98)))) "notes").map
        TextDset.entries
      = some [[97], List.replicate 100 98]
    ∧ ¬ List.replicate 100 (98 : Nat) = List.replicate 150 (98 : Nat)
    ∧ lineBytes (.bytes (List.replicate 150 98)) = List.replicate 150 98 := by
  exact ⟨by decide, by decide, by decide⟩

theorem grpGet_decomp {α : Type} (g : List (String × α)) (n : String) (v : α)
    (h : grpGet g n = some v) :
    ∃ g1 g2, g = g1 ++ (n, v) :: g2 ∧ grpGet g1 n = none := by
  induction g with
  | nil => simp [grpGet] at h
  | cons kv rest ih =>
      by_cases hk : kv.1 = n
      · obtain ⟨a, b⟩ := kv
        simp only at hk
        subst hk
        simp only [grpGet, if_pos rfl] at h
        injection h with hv
        subst hv
        exact ⟨[], rest, rfl, rfl⟩
      · simp only [grpGet, if_neg hk] at h
        obtain ⟨g1, g2, hg, hn⟩ := ih h
        refine ⟨kv :: g1, g2, by rw [hg]; rfl, ?_⟩
        simp [grpGet, hk, hn]

theorem grpSet_decomp {α : Type} (g1 g2 : List (String × α)) (n : String) (v w : α)
    (h : grpGet g1 n = none) :
    grpSet (g1 ++ (n, v) :: g2) n w = g1 ++ (n, w) :: g2 := by
  induction g1 with
  | nil => simp [grpSet]
  | cons kv rest ih =>
      have hk : ¬ kv.1 = n := by
        intro he
        simp [grpGet, he] at h
      simp only [grpGet, if_neg hk] at h
      simp [grpSet, hk, ih h]

theorem writeSec_append (reg : MetaRegistry) (sec : String) (attrs : Attrs)
    (e1 e2 : MetaSec) :
    writeSec reg sec attrs (e1 ++ e2) = writeSec reg sec (writeSec reg sec attrs e1) e2 := by
  induction e1 generalizing attrs with
  | nil => rfl
  | cons kv rest ih =>
      obtain ⟨ck, v⟩ := kv
      simp only [List.cons_append, writeSec]
      exact ih _

theorem writeMeta_append (reg : MetaRegistry) (attrs : Attrs) (m1 m2 : Meta) :
    writeMeta reg attrs (m1 ++ m2) = writeMeta reg (writeMeta reg attrs m1) m2 := by
  induction m1 generalizing attrs with
  | nil => rfl
  | cons se rest ih =>
      obtain ⟨sec, entries⟩ := se
      simp only [List.cons_append, writeMeta]
      exact ih _

theorem grpGet_writeSec_ne (reg : MetaRegistry) (sec : String) (attrs : Attrs)
    (entries : MetaSec) (K : String)
    (h : ∀ e ∈ entries, sec ++ ":" ++ e.1 ≠ K) :
    grpGet (writeSec reg sec attrs entries) K = grpGet attrs K := by
  induction entries generalizing attrs with
  | nil => rfl
  | cons e rest ih =>
      obtain ⟨ck, v⟩ := e
      simp only [writeSec]
      rw [ih _ (fun e2 he2 => h e2 (List.mem_cons_of_mem _ he2))]
      exact grpGet_set_ne _ _ _ _
        (fun heq => h (ck, v) (List.mem_cons_self _ _) heq.symm)

theorem grpGet_writeMeta_ne (reg : MetaRegistry) (attrs : Attrs) (meta : Meta)
    (K : String) (h : ∀ se ∈ meta, ∀ e ∈ se.2, se.1 ++ ":" ++ e.1 ≠ K) :
    grpGet (writeMeta reg attrs meta) K = grpGet attrs K := by
  induction meta generalizing attrs with
  | nil => rfl
  | cons se rest ih =>
      obtain ⟨sec, entries⟩ := se
      simp only [writeMeta]
      rw [ih _ (fun se2 hse2 => h se2 (List.mem_cons_of_mem _ hse2))]
      exact grpGet_writeSec_ne reg sec attrs entries K
        (fun e he => h (sec, entries) (List.mem_cons_self _ _) e he)

theorem metaGetSW_none_of_noSW (meta : Meta)
    (h : ∀ se ∈ meta, ∀ e ∈ se.2, se.1 ++ ":" ++ e.1 ≠ "setup:software version") :
    metaGetSW meta = none := by
  cases hs : grpGet meta "setup" with
  | none => simp [metaGetSW, hs]
  | some entries =>
      cases hw : grpGet entries "software version" with
      | none => simp [metaGetSW, hs, hw]
      | some v =>
          exact absurd rfl
            (h _ (grpGet_mem _ _ _ hs) _ (grpGet_mem _ _ _ hw))

theorem writeMeta_middle (reg : MetaRegistry) (attrs : Attrs) (m1 m2 : Meta)
    (sec : String) (entries : MetaSec) :
    writeMeta reg attrs (m1 ++ (sec, entries) :: m2)
      = writeMeta reg (writeSec reg sec (writeMeta reg attrs m1) entries) m2 := by
  have hsplit : m1 ++ (sec, entries) :: m2 = m1 ++ [(sec, entries)] ++ m2 := by
    simp
  rw [hsplit, writeMeta_append, writeMeta_append]
  rfl

theorem writeSec_middle (reg : MetaRegistry) (sec : String) (attrs : Attrs)
    (e1 e2 : MetaSec) (ck v : String) :
    writeSec reg sec attrs (e1 ++ (ck, v) :: e2)
      = writeSec reg sec
          (grpSet (writeSec reg sec attrs e1) (sec ++ ":" ++ ck)
            (if sec = "user" then v else reg.convfunc sec ck v)) e2 := by
  have hsplit : e1 ++ (ck, v) :: e2 = e1 ++ [(ck, v)] ++ e2 := by
    simp
  rw [hsplit, writeSec_append, writeSec_append]
  rfl

/-- C6: with version branding enabled:
(1) if the container already holds a `setup:software version` attribute
and the call's mapping contains no entry addressing that attribute,
the attribute is left unchanged by the call;
(2) if the caller supplies a version string V under
`setup` / `software version` (with well-formed dict-like input, and the
registry coercion for that key being the identity, as the registered
`str` is), the stored attribute becomes "V | dclab <version>". -/
theorem store_metadata_version_branding (reg : MetaRegistry) :
    (∀ (attrs : Attrs) (meta : Meta) (v0 : String),
      grpGet attrs "setup:software version" = some v0 →
      (∀ se ∈ meta, ∀ e ∈ se.2, se.1 ++ ":" ++ e.1 ≠ "setup:software version") →
      grpGet (store_metadata reg attrs meta true).1 "setup:software version"
        = some v0)
    ∧ (∀ (attrs : Attrs) (meta : Meta) (V : String),
      validateMeta reg meta = none →
      metaGetSW meta = some V →
      (meta.map Prod.fst).Nodup →
      (∀ se ∈ meta, (se.2.map Prod.fst).Nodup) →
      (∀ se ∈ meta, ∀ e ∈ se.2,
        se.1 ++ ":" ++ e.1 = "setup:software version"
          → se.1 = "setup" ∧ e.1 = "software version") →
      (∀ s, reg.convfunc "setup" "software version" s = s) →
      grpGet (store_metadata reg attrs meta true).1 "setup:software version"
        = some (V ++ " | " ++ ("dclab " ++ reg.version))) := by
  constructor
  · intro attrs meta v0 hv0 hno
    cases hval : validateMeta reg meta with
    | some e =>
        simp only [store_metadata, hval]
        exact hv0
    | none =>
        simp only [store_metadata, hval]
        have hbrand : brandMeta reg attrs meta true = meta := by
          simp only [brandMeta]
          rw [if_neg]
          rintro ⟨-, hor⟩
          rcases hor with hnone | hsome
          · rw [hv0] at hnone
            simp at hnone
          · rw [metaGetSW_none_of_noSW meta hno] at hsome
            simp at hsome
        rw [hbrand, grpGet_writeMeta_ne reg attrs meta _ hno]
        exact hv0
  · intro attrs meta V hval hswV hndS hndK hcol hconv
    obtain ⟨entries, hs, hw⟩ :
        ∃ entries, grpGet meta "setup" = some entries
          ∧ grpGet entries "software version" = some V := by
      cases hs0 : grpGet meta "setup" with
      | none =>
          simp only [metaGetSW, hs0] at hswV
          exact absurd hswV (by simp)
      | some entries =>
          simp only [metaGetSW, hs0] at hswV
          exact ⟨entries, rfl, hswV⟩
    obtain ⟨m1, m2, hmeta, hm1⟩ := grpGet_decomp meta "setup" entries hs
    obtain ⟨e1, e2, hentries, he1⟩ := grpGet_decomp entries "software version" V hw
    have hmemSetup : ("setup", entries) ∈ meta := by
      rw [hmeta]
      exact List.mem_append_right _ (List.mem_cons_self _ _)
    have hsetupNotM2 : "setup" ∉ m2.map Prod.fst := by
      have h1 : (m1.map Prod.fst ++ "setup" :: m2.map Prod.fst).Nodup := by
        have h0 := hndS
        rw [hmeta] at h0
        simpa using h0
      exact (List.nodup_cons.mp h1.of_append_right).1
    have hndE : (entries.map Prod.fst).Nodup := hndK _ hmemSetup
    have hswNotE2 : "software version" ∉ e2.map Prod.fst := by
      have h1 : (e1.map Prod.fst ++ "software version" :: e2.map Prod.fst).Nodup := by
        have h0 := hndE
        rw [hentries] at h0
        simpa using h0
      exact (List.nodup_cons.mp h1.of_append_right).1
    have hm2no : ∀ se ∈ m2, ∀ e ∈ se.2,
        se.1 ++ ":" ++ e.1 ≠ "setup:software version" := by
      intro se hse e he heq
      have hsem : se ∈ meta := by
        rw [hmeta]
        exact List.mem_append_right _ (List.mem_cons_of_mem _ hse)
      have hs1 : se.1 = "setup" := (hcol se hsem e he heq).1
      apply hsetupNotM2
      rw [← hs1]
      exact List.mem_map_of_mem Prod.fst hse
    have he2no : ∀ e ∈ e2, "setup" ++ ":" ++ e.1 ≠ "setup:software version" := by
      intro e he heq
      have hent : e ∈ entries := by
        rw [hentries]
        exact List.mem_append_right _ (List.mem_cons_of_mem _ he)
      have hkey := (hcol ("setup", entries) hmemSetup e hent heq).2
      apply hswNotE2
      rw [← hkey]
      exact List.mem_map_of_mem Prod.fst he
    have hbrand : brandMeta reg attrs meta true
        = grpSet meta "setup" (grpSet entries "software version"
            (V ++ " | " ++ ("dclab " ++ reg.version))) := by
      simp [brandMeta, hswV, hs]
    have hset : grpSet meta "setup" (grpSet entries "software version"
        (V ++ " | " ++ ("dclab " ++ reg.version)))
        = m1 ++ ("setup", grpSet entries "software version"
            (V ++ " | " ++ ("dclab " ++ reg.version))) :: m2 := by
      rw [hmeta]
      exact grpSet_decomp m1 m2 "setup" entries _ hm1
    have hsetE : grpSet entries "software version"
        (V ++ " | " ++ ("dclab " ++ reg.version))
        = e1 ++ ("software version", V ++ " | " ++ ("dclab " ++ reg.version)) :: e2 := by
      rw [hentries]
      exact grpSet_decomp e1 e2 "software version" V _ he1
    simp only [store_metadata, hval]
    rw [hbrand, hset, hsetE, writeMeta_middle,
      grpGet_writeMeta_ne reg _ m2 _ hm2no, writeSec_middle,
      grpGet_writeSec_ne reg "setup" _ e2 _ he2no]
    rw [show ("setup" ++ ":" ++ "software version" : String)
        = "setup:software version" from rfl]
    rw [if_neg (by decide : ¬ ("setup" : String) = "user")]
    rw [hconv]
    exact grpGet_set_self _ _ _

/-- Witness for C6: part (1) with an already branded attribute and a
"user" section write; part (2) supplying version "1.0". -/
theorem store_metadata_version_branding_witness :
    grpGet (store_metadata regExample
        [("setup:software version", "1.0 | dclab 0.39.0")]
        [("user", [("x", "y")])] true).1 "setup:software version"
      = some "1.0 | dclab 0.39.0"
    ∧ grpGet (store_metadata regExample []
        [("setup", [("software version", "1.0")])] true).1 "setup:software version"
      = some ("1.0" ++ " | " ++ ("dclab " ++ regExample.version)) :=
  ⟨(store_metadata_version_branding regExample).1
      [("setup:software version", "1.0 | dclab 0.39.0")]
      [("user", [("x", "y")])] "1.0 | dclab 0.39.0" rfl (by decide),
   (store_metadata_version_branding regExample).2 []
      [("setup", [("software version", "1.0")])] "1.0" rfl rfl
      (by decide) (by decide) (by decide) (fun s => rfl)⟩

end Dclab
